import Mathlib

/-!
Verification of the ODE-solver notebook (`ODE_solver.ipynb`).

Shallow embedding conventions:
* Python floats are modelled as exact numbers: times and step sizes as `ℚ`,
  pendulum states as `ℝ` (the pendulum right-hand side uses `Real.sin`).
* Each `while t < T` driver loop is embedded as a fuel-indexed recursion
  returning `Option`: `some` is a normal return of the Python function and
  `none` means the given iteration budget was exhausted (in particular, a loop
  that never terminates yields `none` for every fuel).
* The Python lists `times`/`history` are built by appending one element per
  iteration; the recursion below produces the same lists, with the initial
  entries consed on by the driver wrapper.
* A Python exception is modelled with `Except`: `integrate_RK2` and the first
  `integrate_RK4` evaluate the attribute access `"insert_here".rhs`, which
  always raises `AttributeError` since a `str` has no attribute `rhs`.
-/

/-- `np.radians`: degrees to radians. -/
noncomputable def radians (x : ℝ) : ℝ := x * Real.pi / 180

/-- The `SimplePendulum` class: fields stored by `__init__`
(`theta0` already converted to radians). -/
structure SimplePendulum where
  theta0 : ℝ
  g : ℝ
  L : ℝ

/-- `SimplePendulum.__init__(theta0, g=9.81, L=9.81)`: `theta0` is supplied in
degrees and converted to radians at construction; `g` and `L` are stored. -/
noncomputable def SimplePendulum.init (theta0 g L : ℝ) : SimplePendulum :=
  { theta0 := radians theta0, g := g, L := L }

/-- `SimplePendulum.rhs(theta, omega)`:
returns the vector `[omega, -(g / L) * sin theta]`. -/
noncomputable def SimplePendulum.rhs (p : SimplePendulum) (theta omega : ℝ) : ℝ × ℝ :=
  (omega, -(p.g / p.L) * Real.sin theta)

/-- The `while t < tmax` loop of `SimplePendulum.integrate_euler`.
Each iteration reads the last stored state, evaluates the RHS, advances the
state by a full Euler step, advances `t` by `dt` (the source has no
last-step clamp), and appends `t`, `theta_new`, `omega_new`.  The recursion
returns the lists of appended values. -/
noncomputable def eulerLoop (p : SimplePendulum) (dt tmax : ℚ) :
    ℕ → ℚ → ℝ → ℝ → Option (List ℚ × List ℝ × List ℝ)
  | 0, t, _, _ => if t < tmax then none else some ([], [], [])
  | fuel+1, t, theta, omega =>
      if t < tmax then
        let d := p.rhs theta omega
        let theta_new := theta + (dt : ℝ) * d.1
        let omega_new := omega + (dt : ℝ) * d.2
        let t' := t + dt
        Option.map (fun r => (t' :: r.1, theta_new :: r.2.1, omega_new :: r.2.2))
          (eulerLoop p dt tmax fuel t' theta_new omega_new)
      else some ([], [], [])

/-- `SimplePendulum.integrate_euler(dt, tmax)`: starts from
`t_s = [0]`, `theta_s = [theta0]`, `omega_s = [0]` and runs the time loop. -/
noncomputable def SimplePendulum.integrate_euler (p : SimplePendulum) (dt tmax : ℚ) (fuel : ℕ) :
    Option (List ℚ × List ℝ × List ℝ) :=
  Option.map (fun r => (0 :: r.1, p.theta0 :: r.2.1, 0 :: r.2.2))
    (eulerLoop p dt tmax fuel 0 p.theta0 0)

/-- The cell `p10 = SimplePendulum(theta0)` with `theta0 = 10.0` and the
default `g = L = 9.81`. -/
noncomputable def pend10 : SimplePendulum := SimplePendulum.init 10 9.81 9.81

/-- The `while t < T` loop of the second (compact) `integrate_RK4`.
The step is clamped (`if t + tau > T: tau = T - t`, the reassigned `tau` is
carried into later iterations), the four RK4 stages are evaluated with the
ambient right-hand-side function `rhs` (a free global name in the source,
modelled as a parameter; it takes only the state), and the weighted update is
applied.  The recursion returns the lists of appended times and states. -/
def rk4Loop {S : Type} [AddCommMonoid S] [Module ℚ S] (rhs : S → S) (T : ℚ) :
    ℕ → ℚ → ℚ → S → Option (List ℚ × List S)
  | 0, _, t, _ => if t < T then none else some ([], [])
  | fuel+1, tau, t, state_old =>
      if t < T then
        let tau' := if T < t + tau then T - t else tau
        let k1 := rhs state_old
        let k2 := rhs (state_old + ((1/2 : ℚ) * tau') • k1)
        let k3 := rhs (state_old + ((1/2 : ℚ) * tau') • k2)
        let k4 := rhs (state_old + tau' • k3)
        let state_new := state_old + (tau' / 6) • (k1 + (2 : ℚ) • k2 + (2 : ℚ) • k3 + k4)
        let t' := t + tau'
        Option.map (fun r => (t' :: r.1, state_new :: r.2))
          (rk4Loop rhs T fuel tau' t' state_new)
      else some ([], [])

/-- `integrate_RK4(state0, tau, T)` (the second, compact definition, which in
Python shadows the first): `times = [0]`, `history = [state0]`, then the time
loop. -/
def integrate_RK4 {S : Type} [AddCommMonoid S] [Module ℚ S] (rhs : S → S)
    (state0 : S) (tau T : ℚ) (fuel : ℕ) : Option (List ℚ × List S) :=
  Option.map (fun r => (0 :: r.1, state0 :: r.2))
    (rk4Loop rhs T fuel tau 0 state0)

/-- A Python runtime error. -/
inductive PyError where
  | attributeError
deriving DecidableEq

/-- The expression `"insert_here".rhs(state)` in `integrate_RK2` and in the
first `integrate_RK4`: attribute lookup `.rhs` on the string literal
`"insert_here"` always raises `AttributeError` (a `str` has no attribute
`rhs`), so evaluating this call always fails, whatever the argument. -/
def insertHereRhs {S : Type} : S → Except PyError S :=
  fun _ => Except.error PyError.attributeError

/-- The `while t < T` loop of `integrate_RK2` as written in the source: after
the last-step clamp, the body evaluates `"insert_here".rhs(state_old)`, which
raises; the rest of the body (midpoint prediction, second RHS evaluation,
final update, append) is reached only if those calls were to succeed. -/
def rk2Loop {S : Type} [AddCommMonoid S] [Module ℚ S] (T : ℚ) :
    ℕ → ℚ → ℚ → S → Option (Except PyError (List ℚ × List S))
  | 0, _, t, _ => if t < T then none else some (Except.ok ([], []))
  | fuel+1, tau, t, state_old =>
      if t < T then
        let tau' := if T < t + tau then T - t else tau
        match insertHereRhs state_old with
        | Except.error e => some (Except.error e)
        | Except.ok fdot =>
          let state_tmp := state_old + ((1/2 : ℚ) * tau') • fdot
          match insertHereRhs state_tmp with
          | Except.error e => some (Except.error e)
          | Except.ok fdot2 =>
            let state_new := state_old + tau' • fdot2
            let t' := t + tau'
            Option.map (fun r => Except.map (fun q => (t' :: q.1, state_new :: q.2)) r)
              (rk2Loop T fuel tau' t' state_new)
      else some (Except.ok ([], []))

/-- `integrate_RK2(state0, tau, T)` as written in the source (the RHS receiver
is the unresolved string `"insert_here"`). -/
def integrate_RK2 {S : Type} [AddCommMonoid S] [Module ℚ S]
    (state0 : S) (tau T : ℚ) (fuel : ℕ) :
    Option (Except PyError (List ℚ × List S)) :=
  Option.map (fun r => Except.map (fun q => (0 :: q.1, state0 :: q.2)) r)
    (rk2Loop (S := S) T fuel tau 0 state0)

/-- The `while t < T` loop of the first `integrate_RK4` definition as written
in the source: after the clamp, `k1 = "insert_here".rhs(state_old)` raises;
the remaining stages and the update are reached only if the calls were to
succeed. -/
def rk4V1Loop {S : Type} [AddCommMonoid S] [Module ℚ S] (T : ℚ) :
    ℕ → ℚ → ℚ → S → Option (Except PyError (List ℚ × List S))
  | 0, _, t, _ => if t < T then none else some (Except.ok ([], []))
  | fuel+1, tau, t, state_old =>
      if t < T then
        let tau' := if T < t + tau then T - t else tau
        match insertHereRhs state_old with
        | Except.error e => some (Except.error e)
        | Except.ok k1 =>
          match insertHereRhs (state_old + ((1/2 : ℚ) * tau') • k1) with
          | Except.error e => some (Except.error e)
          | Except.ok k2 =>
            match insertHereRhs (state_old + ((1/2 : ℚ) * tau') • k2) with
            | Except.error e => some (Except.error e)
            | Except.ok k3 =>
              match insertHereRhs (state_old + tau' • k3) with
              | Except.error e => some (Except.error e)
              | Except.ok k4 =>
                let state_new :=
                  state_old + (tau' / 6) • (k1 + (2 : ℚ) • k2 + (2 : ℚ) • k3 + k4)
                let t' := t + tau'
                Option.map (fun r => Except.map (fun q => (t' :: q.1, state_new :: q.2)) r)
                  (rk4V1Loop T fuel tau' t' state_new)
      else some (Except.ok ([], []))

/-- The first `integrate_RK4(state0, tau, T)` definition as written in the
source (RHS receiver is the unresolved string `"insert_here"`). -/
def integrate_RK4_v1 {S : Type} [AddCommMonoid S] [Module ℚ S]
    (state0 : S) (tau T : ℚ) (fuel : ℕ) :
    Option (Except PyError (List ℚ × List S)) :=
  Option.map (fun r => Except.map (fun q => (0 :: q.1, state0 :: q.2)) r)
    (rk4V1Loop (S := S) T fuel tau 0 state0)

/-- Modelled from the spec: the loop of `integrate_RK2` with the unresolved
receiver `"insert_here"` replaced by an explicit right-hand-side parameter, as
section 9 of the spec prescribes ("implement rhs as an explicit function
parameter passed into the driver/stepper").  The body is otherwise the
source's: clamp, `fdot = rhs(state_old)`, midpoint prediction
`state_tmp = state_old + 0.5 * tau * fdot`, `fdot = rhs(state_tmp)`, final
update `state_new = state_old + tau * fdot`. -/
def rk2ModelLoop {S : Type} [AddCommMonoid S] [Module ℚ S] (rhs : S → S) (T : ℚ) :
    ℕ → ℚ → ℚ → S → Option (List ℚ × List S)
  | 0, _, t, _ => if t < T then none else some ([], [])
  | fuel+1, tau, t, state_old =>
      if t < T then
        let tau' := if T < t + tau then T - t else tau
        let fdot := rhs state_old
        let state_tmp := state_old + ((1/2 : ℚ) * tau') • fdot
        let fdot2 := rhs state_tmp
        let state_new := state_old + tau' • fdot2
        let t' := t + tau'
        Option.map (fun r => (t' :: r.1, state_new :: r.2))
          (rk2ModelLoop rhs T fuel tau' t' state_new)
      else some ([], [])

/-- Modelled from the spec: `integrate_RK2` with the RHS as a parameter
(see `rk2ModelLoop`). -/
def integrate_RK2_model {S : Type} [AddCommMonoid S] [Module ℚ S] (rhs : S → S)
    (state0 : S) (tau T : ℚ) (fuel : ℕ) : Option (List ℚ × List S) :=
  Option.map (fun r => (0 :: r.1, state0 :: r.2))
    (rk2ModelLoop rhs T fuel tau 0 state0)

/-- Generic form of the clamped `while t < T` driver loop shared by
`rk4Loop` and `rk2ModelLoop`: `f` is the one-step state update, given the
effective (possibly clamped) step size. -/
def genLoop {S : Type} (f : ℚ → S → S) (T : ℚ) :
    ℕ → ℚ → ℚ → S → Option (List ℚ × List S)
  | 0, _, t, _ => if t < T then none else some ([], [])
  | fuel+1, tau, t, s =>
      if t < T then
        let tau' := if T < t + tau then T - t else tau
        let s' := f tau' s
        let t' := t + tau'
        Option.map (fun r => (t' :: r.1, s' :: r.2)) (genLoop f T fuel tau' t' s')
      else some ([], [])

/-- The loop body of the compact `integrate_RK4`, as a function of the
effective step size and the old state. -/
def rk4Body {S : Type} [AddCommMonoid S] [Module ℚ S] (rhs : S → S)
    (tau : ℚ) (state_old : S) : S :=
  let k1 := rhs state_old
  let k2 := rhs (state_old + ((1/2 : ℚ) * tau) • k1)
  let k3 := rhs (state_old + ((1/2 : ℚ) * tau) • k2)
  let k4 := rhs (state_old + tau • k3)
  state_old + (tau / 6) • (k1 + (2 : ℚ) • k2 + (2 : ℚ) • k3 + k4)

/-- The loop body of the spec-modelled `integrate_RK2`, as a function of the
effective step size and the old state. -/
def rk2Body {S : Type} [AddCommMonoid S] [Module ℚ S] (rhs : S → S)
    (tau : ℚ) (state_old : S) : S :=
  let fdot := rhs state_old
  let state_tmp := state_old + ((1/2 : ℚ) * tau) • fdot
  let fdot2 := rhs state_tmp
  state_old + tau • fdot2

/-- Definition following the spec's words (section 4.3): one classical RK4
step, `y + (τ/6)·(k1 + 2k2 + 2k3 + k4)` with
`k1 = rhs y`, `k2 = rhs (y + (τ/2)k1)`, `k3 = rhs (y + (τ/2)k2)`,
`k4 = rhs (y + τ k3)`. -/
def rk4SpecStep {S : Type} [AddCommMonoid S] [Module ℚ S] (rhs : S → S)
    (tau : ℚ) (y : S) : S :=
  let k1 := rhs y
  let k2 := rhs (y + (tau / 2) • k1)
  let k3 := rhs (y + (tau / 2) • k2)
  let k4 := rhs (y + tau • k3)
  y + (tau / 6) • (k1 + (2 : ℚ) • k2 + (2 : ℚ) • k3 + k4)

/-- Definition following the spec's words (section 4.2): one RK2 (midpoint)
step, `y + τ·k2` with `k1 = rhs y`, `mid = y + (τ/2)k1`, `k2 = rhs mid`. -/
def rk2SpecStep {S : Type} [AddCommMonoid S] [Module ℚ S] (rhs : S → S)
    (tau : ℚ) (y : S) : S :=
  let k1 := rhs y
  let mid := y + (tau / 2) • k1
  let k2 := rhs mid
  y + tau • k2

/-- Definition following the spec's words (section 4.1): one Euler step,
`state + τ · rhs state`, for the pendulum state vector `(θ, ω)`. -/
noncomputable def eulerSpecStep (p : SimplePendulum) (tau : ℚ) (s : ℝ × ℝ) : ℝ × ℝ :=
  s + (tau : ℝ) • p.rhs s.1 s.2

/-! ### Structural lemmas about the loops -/

theorem rk4Loop_eq_gen {S : Type} [AddCommMonoid S] [Module ℚ S] (rhs : S → S) (T : ℚ) :
    ∀ (fuel : ℕ) (tau t : ℚ) (s : S),
    rk4Loop rhs T fuel tau t s = genLoop (rk4Body rhs) T fuel tau t s := by
  intro fuel
  induction fuel with
  | zero => intro tau t s; rfl
  | succ n ih =>
      intro tau t s
      simp only [rk4Loop, genLoop, rk4Body, ih]

theorem rk2ModelLoop_eq_gen {S : Type} [AddCommMonoid S] [Module ℚ S] (rhs : S → S) (T : ℚ) :
    ∀ (fuel : ℕ) (tau t : ℚ) (s : S),
    rk2ModelLoop rhs T fuel tau t s = genLoop (rk2Body rhs) T fuel tau t s := by
  intro fuel
  induction fuel with
  | zero => intro tau t s; rfl
  | succ n ih =>
      intro tau t s
      simp only [rk2ModelLoop, genLoop, rk2Body, ih]

theorem genLoop_chain {S : Type} (f : ℚ → S → S) (T : ℚ) :
    ∀ (fuel : ℕ) (tau t : ℚ) (s : S) (ts : List ℚ) (hs : List S),
    genLoop f T fuel tau t s = some (ts, hs) →
    hs.length = ts.length ∧
      List.Chain' (fun a b => b.2 = f (b.1 - a.1) a.2) ((t, s) :: ts.zip hs) := by
  intro fuel
  induction fuel with
  | zero =>
      intro tau t s ts hs h
      by_cases hlt : t < T
      · simp only [genLoop, if_pos hlt] at h
        exact Option.noConfusion h
      · simp only [genLoop, if_neg hlt, Option.some.injEq, Prod.mk.injEq] at h
        obtain ⟨h1, h2⟩ := h
        subst h1; subst h2
        exact ⟨rfl, List.chain'_singleton _⟩
  | succ n ih =>
      intro tau t s ts hs h
      by_cases hlt : t < T
      · simp only [genLoop, if_pos hlt] at h
        rcases Option.map_eq_some'.mp h with ⟨⟨ts₂, hs₂⟩, hrec, hmap⟩
        obtain ⟨h1, h2⟩ := Prod.mk.injEq .. ▸ hmap
        subst h1; subst h2
        obtain ⟨ih1, ih2⟩ := ih _ _ _ _ _ hrec
        refine ⟨by simpa using ih1, ?_⟩
        refine List.chain'_cons.mpr ⟨?_, ih2⟩
        show f _ s = f _ s
        rw [add_sub_cancel_left]
      · simp only [genLoop, if_neg hlt, Option.some.injEq, Prod.mk.injEq] at h
        obtain ⟨h1, h2⟩ := h
        subst h1; subst h2
        exact ⟨rfl, List.chain'_singleton _⟩

theorem genLoop_none {S : Type} (f : ℚ → S → S) (T : ℚ) (hT : 0 < T) :
    ∀ (fuel : ℕ) (tau t : ℚ) (s : S), tau ≤ 0 → t ≤ 0 →
    genLoop f T fuel tau t s = none := by
  intro fuel
  induction fuel with
  | zero =>
      intro tau t s htau ht
      simp only [genLoop, if_pos (lt_of_le_of_lt ht hT)]
  | succ n ih =>
      intro tau t s htau ht
      have hlt : t < T := lt_of_le_of_lt ht hT
      have hnoclamp : ¬ T < t + tau := not_lt.mpr ((add_nonpos ht htau).trans hT.le)
      simp only [genLoop, if_pos hlt, if_neg hnoclamp]
      rw [ih tau (t + tau) _ htau (add_nonpos ht htau)]
      rfl

/-- Termination and the shape of the times produced by the clamped driver
loop: with positive step and enough fuel the loop returns; it appends
`⌈(T - t)/τ⌉` times, strictly increasing, all bounded by `T`, the last one
exactly `T` when at least one iteration runs. -/
theorem genLoop_spec {S : Type} (f : ℚ → S → S) (T : ℚ) :
    ∀ (fuel : ℕ) (tau t : ℚ) (s : S), 0 < tau → (⌈(T - t) / tau⌉).toNat ≤ fuel →
    ∃ ts hs, genLoop f T fuel tau t s = some (ts, hs) ∧
      ts.length = (⌈(T - t) / tau⌉).toNat ∧
      hs.length = ts.length ∧
      List.Chain' (fun a b : ℚ => a < b) (t :: ts) ∧
      (∀ u ∈ ts, u ≤ T) ∧
      (t < T → ts.getLast? = some T) := by
  intro fuel
  induction fuel with
  | zero =>
      intro tau t s htau hfuel
      have hlt : ¬ t < T := by
        intro hlt
        have h1 : (0:ℚ) < (T - t) / tau := div_pos (sub_pos.mpr hlt) htau
        have h2 : (0:ℤ) < ⌈(T - t) / tau⌉ := Int.lt_ceil.mpr (by exact_mod_cast h1)
        omega
      refine ⟨[], [], ?_, ?_, rfl, List.chain'_singleton t, by simp, fun h => absurd h hlt⟩
      · simp only [genLoop, if_neg hlt]
      · simp only [List.length_nil]
        omega
  | succ n ih =>
      intro tau t s htau hfuel
      by_cases hlt : t < T
      · set tau' : ℚ := if T < t + tau then T - t else tau with hdeftau
        have htau' : 0 < tau' := by
          rw [hdeftau]; split
          · exact sub_pos.mpr hlt
          · exact htau
        have ht'le : t + tau' ≤ T := by
          rw [hdeftau]; split
          · linarith
          · linarith [not_lt.mp (by assumption : ¬ T < t + tau)]
        have hceil : ⌈(T - t) / tau⌉ = ⌈(T - (t + tau')) / tau'⌉ + 1 := by
          rw [hdeftau]; split
          · rename_i hclamp
            have h1 : ⌈(T - t) / tau⌉ = 1 := by
              have hpos : (0:ℚ) < (T - t) / tau := div_pos (sub_pos.mpr hlt) htau
              have hle : (T - t) / tau ≤ 1 := by
                rw [div_le_one htau]; linarith
              have hc1 : (0:ℤ) < ⌈(T - t) / tau⌉ := Int.lt_ceil.mpr (by exact_mod_cast hpos)
              have hc2 : ⌈(T - t) / tau⌉ ≤ 1 := Int.ceil_le.mpr (by exact_mod_cast hle)
              omega
            have h2 : T - (t + (T - t)) = 0 := by ring
            rw [h1, h2, zero_div, Int.ceil_zero]
            norm_num
          · have h2 : (T - (t + tau)) / tau = (T - t) / tau - 1 := by
              rw [show T - (t + tau) = T - t - tau by ring, sub_div,
                div_self htau.ne.symm]
            rw [h2, Int.ceil_sub_one]
            ring
        have hc1 : (0:ℤ) < ⌈(T - t) / tau⌉ :=
          Int.lt_ceil.mpr (by exact_mod_cast div_pos (sub_pos.mpr hlt) htau)
        have hfuel' : (⌈(T - (t + tau')) / tau'⌉).toNat ≤ n := by omega
        obtain ⟨ts₂, hs₂, heq, hlen, hlenh, hchain, hbound, hlast⟩ :=
          ih tau' (t + tau') (f tau' s) htau' hfuel'
        refine ⟨(t + tau') :: ts₂, f tau' s :: hs₂, ?_, ?_, by simp [hlenh], ?_, ?_, ?_⟩
        · simp only [genLoop, if_pos hlt, ← hdeftau, heq, Option.map_some']
        · simp only [List.length_cons, hlen]
          omega
        · exact List.chain'_cons.mpr ⟨lt_add_of_pos_right t htau', hchain⟩
        · intro u hu
          rcases List.mem_cons.mp hu with h | h
          · subst h; exact ht'le
          · exact hbound u h
        · intro _
          by_cases h2 : t + tau' < T
          · have hl := hlast h2
            cases ts₂ with
            | nil => simp at hl
            | cons a l => rw [List.getLast?_cons_cons]; exact hl
          · have heqT : t + tau' = T := le_antisymm ht'le (not_lt.mp h2)
            have hm0 : (⌈(T - (t + tau')) / tau'⌉).toNat = 0 := by
              rw [heqT, sub_self, zero_div, Int.ceil_zero]
              rfl
            have : ts₂ = [] := List.length_eq_zero.mp (by omega)
            subst this
            simp [heqT]
      · have hfz : (⌈(T - t) / tau⌉).toNat = 0 := by
          have h1 : (T - t) / tau ≤ 0 :=
            div_nonpos_iff.mpr (Or.inr ⟨sub_nonpos.mpr (not_lt.mp hlt), htau.le⟩)
          have h2 : ⌈(T - t) / tau⌉ ≤ 0 := Int.ceil_le.mpr (by exact_mod_cast h1)
          omega
        refine ⟨[], [], ?_, by simp only [List.length_nil]; omega, rfl,
          List.chain'_singleton t, by simp, fun h => absurd h hlt⟩
        simp only [genLoop, if_neg hlt]

theorem eulerLoop_chain (p : SimplePendulum) (dt tmax : ℚ) :
    ∀ (fuel : ℕ) (t : ℚ) (theta omega : ℝ) (ts : List ℚ) (ths oms : List ℝ),
    eulerLoop p dt tmax fuel t theta omega = some (ts, ths, oms) →
    ths.length = ts.length ∧ oms.length = ts.length ∧
      List.Chain' (fun a b => b = eulerSpecStep p dt a) ((theta, omega) :: ths.zip oms) := by
  intro fuel
  induction fuel with
  | zero =>
      intro t theta omega ts ths oms h
      by_cases hlt : t < tmax
      · simp only [eulerLoop, if_pos hlt] at h
        exact Option.noConfusion h
      · simp only [eulerLoop, if_neg hlt, Option.some.injEq, Prod.mk.injEq] at h
        obtain ⟨h1, h2, h3⟩ := h
        subst h1; subst h2; subst h3
        exact ⟨rfl, rfl, List.chain'_singleton _⟩
  | succ n ih =>
      intro t theta omega ts ths oms h
      by_cases hlt : t < tmax
      · simp only [eulerLoop, if_pos hlt] at h
        rcases Option.map_eq_some'.mp h with ⟨⟨ts₂, ths₂, oms₂⟩, hrec, hmap⟩
        simp only [Prod.mk.injEq] at hmap
        obtain ⟨h1, h2, h3⟩ := hmap
        subst h1; subst h2; subst h3
        obtain ⟨ih1, ih2, ih3⟩ := ih _ _ _ _ _ _ hrec
        refine ⟨by simpa using ih1, by simpa using ih2, ?_⟩
        refine List.chain'_cons.mpr ⟨?_, ih3⟩
        show (theta + (dt : ℝ) * (p.rhs theta omega).1,
              omega + (dt : ℝ) * (p.rhs theta omega).2) =
          eulerSpecStep p dt (theta, omega)
        simp only [eulerSpecStep, Prod.mk_add_mk, Prod.smul_mk, smul_eq_mul,
          Prod.mk.injEq]
        rfl
      · simp only [eulerLoop, if_neg hlt, Option.some.injEq, Prod.mk.injEq] at h
        obtain ⟨h1, h2, h3⟩ := h
        subst h1; subst h2; subst h3
        exact ⟨rfl, rfl, List.chain'_singleton _⟩

theorem eulerLoop_none (p : SimplePendulum) (dt tmax : ℚ) (htmax : 0 < tmax)
    (hdt : dt ≤ 0) :
    ∀ (fuel : ℕ) (t : ℚ) (theta omega : ℝ), t ≤ 0 →
    eulerLoop p dt tmax fuel t theta omega = none := by
  intro fuel
  induction fuel with
  | zero =>
      intro t theta omega ht
      simp only [eulerLoop, if_pos (lt_of_le_of_lt ht htmax)]
  | succ n ih =>
      intro t theta omega ht
      simp only [eulerLoop, if_pos (lt_of_le_of_lt ht htmax)]
      rw [ih (t + dt) _ _ (add_nonpos ht hdt)]
      rfl

/-- Termination and the shape of the times produced by the Euler loop: with
positive step and enough fuel it returns; it appends `⌈(tmax - t)/dt⌉`
strictly increasing times, with no clamp, so they run up to
`t + ⌈(tmax - t)/dt⌉ · dt`, which is also the last time recorded when at
least one iteration runs. -/
theorem eulerLoop_spec (p : SimplePendulum) (dt tmax : ℚ) (hdt : 0 < dt) :
    ∀ (fuel : ℕ) (t : ℚ) (theta omega : ℝ), (⌈(tmax - t) / dt⌉).toNat ≤ fuel →
    ∃ ts ths oms, eulerLoop p dt tmax fuel t theta omega = some (ts, ths, oms) ∧
      ts.length = (⌈(tmax - t) / dt⌉).toNat ∧
      ths.length = ts.length ∧
      oms.length = ts.length ∧
      List.Chain' (fun a b : ℚ => a < b) (t :: ts) ∧
      (∀ u ∈ ts, u ≤ t + ((⌈(tmax - t) / dt⌉).toNat : ℚ) * dt) ∧
      (t < tmax → ts.getLast? = some (t + ((⌈(tmax - t) / dt⌉).toNat : ℚ) * dt)) := by
  intro fuel
  induction fuel with
  | zero =>
      intro t theta omega hfuel
      have hlt : ¬ t < tmax := by
        intro hlt
        have h1 : (0:ℚ) < (tmax - t) / dt := div_pos (sub_pos.mpr hlt) hdt
        have h2 : (0:ℤ) < ⌈(tmax - t) / dt⌉ := Int.lt_ceil.mpr (by exact_mod_cast h1)
        omega
      refine ⟨[], [], [], ?_, by simp only [List.length_nil]; omega, rfl, rfl,
        List.chain'_singleton t, by simp, fun h => absurd h hlt⟩
      simp only [eulerLoop, if_neg hlt]
  | succ n ih =>
      intro t theta omega hfuel
      by_cases hlt : t < tmax
      · have hceil : ⌈(tmax - t) / dt⌉ = ⌈(tmax - (t + dt)) / dt⌉ + 1 := by
          have h2 : (tmax - (t + dt)) / dt = (tmax - t) / dt - 1 := by
            rw [show tmax - (t + dt) = tmax - t - dt by ring, sub_div,
              div_self hdt.ne.symm]
          rw [h2, Int.ceil_sub_one]
          ring
        have hc1 : (0:ℤ) < ⌈(tmax - t) / dt⌉ :=
          Int.lt_ceil.mpr (by exact_mod_cast div_pos (sub_pos.mpr hlt) hdt)
        have hfuel' : (⌈(tmax - (t + dt)) / dt⌉).toNat ≤ n := by omega
        obtain ⟨ts₂, ths₂, oms₂, heq, hlen, hlenth, hlenom, hchain, hbound, hlast⟩ :=
          ih (t + dt) (theta + (dt : ℝ) * (p.rhs theta omega).1)
            (omega + (dt : ℝ) * (p.rhs theta omega).2) hfuel'
        have hcast : (((⌈(tmax - t) / dt⌉).toNat : ℚ)) =
            ((⌈(tmax - (t + dt)) / dt⌉).toNat : ℚ) + 1 := by
          have hnat : (⌈(tmax - t) / dt⌉).toNat =
              (⌈(tmax - (t + dt)) / dt⌉).toNat + 1 := by omega
          rw [hnat]
          push_cast
          ring
        refine ⟨(t + dt) :: ts₂,
          (theta + (dt : ℝ) * (p.rhs theta omega).1) :: ths₂,
          (omega + (dt : ℝ) * (p.rhs theta omega).2) :: oms₂, ?_, ?_,
          by simp [hlenth], by simp [hlenom], ?_, ?_, ?_⟩
        · simp only [eulerLoop, if_pos hlt, heq, Option.map_some']
        · simp only [List.length_cons, hlen]
          omega
        · exact List.chain'_cons.mpr ⟨lt_add_of_pos_right t hdt, hchain⟩
        · intro u hu
          have harith : t + dt + ((⌈(tmax - (t + dt)) / dt⌉).toNat : ℚ) * dt =
              t + ((⌈(tmax - t) / dt⌉).toNat : ℚ) * dt := by
            rw [hcast]; ring
          rcases List.mem_cons.mp hu with h | h
          · subst h
            have h1 : (1:ℚ) ≤ ((⌈(tmax - t) / dt⌉).toNat : ℚ) := by
              exact_mod_cast Nat.one_le_iff_ne_zero.mpr (by omega)
            nlinarith
          · have := hbound u h
            linarith [harith]
        · intro _
          have harith : t + dt + ((⌈(tmax - (t + dt)) / dt⌉).toNat : ℚ) * dt =
              t + ((⌈(tmax - t) / dt⌉).toNat : ℚ) * dt := by
            rw [hcast]; ring
          by_cases h2 : t + dt < tmax
          · have hl := hlast h2
            cases ts₂ with
            | nil => simp at hl
            | cons a l =>
                rw [List.getLast?_cons_cons, hl, harith]
          · have hm0 : (⌈(tmax - (t + dt)) / dt⌉).toNat = 0 := by
              have h1 : (tmax - (t + dt)) / dt ≤ 0 :=
                div_nonpos_iff.mpr (Or.inr ⟨sub_nonpos.mpr (not_lt.mp h2), hdt.le⟩)
              have h3 : ⌈(tmax - (t + dt)) / dt⌉ ≤ 0 := Int.ceil_le.mpr (by exact_mod_cast h1)
              omega
            have hnil : ts₂ = [] := List.length_eq_zero.mp (by omega)
            subst hnil
            simp only [List.getLast?_singleton, Option.some.injEq]
            rw [← harith, hm0]
            push_cast
            ring
      · have hfz : (⌈(tmax - t) / dt⌉).toNat = 0 := by
          have h1 : (tmax - t) / dt ≤ 0 :=
            div_nonpos_iff.mpr (Or.inr ⟨sub_nonpos.mpr (not_lt.mp hlt), hdt.le⟩)
          have h2 : ⌈(tmax - t) / dt⌉ ≤ 0 := Int.ceil_le.mpr (by exact_mod_cast h1)
          omega
        refine ⟨[], [], [], ?_, by simp only [List.length_nil]; omega, rfl, rfl,
          List.chain'_singleton t, by simp, fun h => absurd h hlt⟩
        simp only [eulerLoop, if_neg hlt]

theorem mem_of_getLast?_eq_some {α : Type} {l : List α} {a : α}
    (h : l.getLast? = some a) : a ∈ l := by
  rcases List.mem_getLast?_eq_getLast (l := l) (x := a) (by rw [h]; rfl) with ⟨hne, rfl⟩
  exact List.getLast_mem hne

/-- Exact-division runs of the clamped driver loop: when `t + n·τ = T` the
clamp never fires and the loop performs exactly `n` full steps, recording the
times `t + (k+1)·τ` and the iterated states. -/
theorem genLoop_exact {S : Type} (f : ℚ → S → S) (T tau : ℚ) (htau : 0 < tau) :
    ∀ (n fuel : ℕ) (t : ℚ) (s : S), n ≤ fuel → t + (n : ℚ) * tau = T →
    genLoop f T fuel tau t s =
      some ((List.range n).map (fun k : ℕ => t + ((k : ℚ) + 1) * tau),
            (List.range n).map (fun k : ℕ => (f tau)^[k + 1] s)) := by
  intro n
  induction n with
  | zero =>
      intro fuel t s _ ht
      have hT : ¬ t < T := by
        push_cast at ht
        simp only [zero_mul, add_zero] at ht
        exact not_lt.mpr (le_of_eq ht.symm)
      cases fuel with
      | zero => simp only [genLoop, if_neg hT, List.range_zero, List.map_nil]
      | succ fl => simp only [genLoop, if_neg hT, List.range_zero, List.map_nil]
  | succ m ih =>
      intro fuel t s hn ht
      push_cast at ht
      have hmtau : (0:ℚ) ≤ (m : ℚ) * tau := by positivity
      have hlt : t < T := by nlinarith
      have hnc : ¬ T < t + tau := by nlinarith
      cases fuel with
      | zero => omega
      | succ fl =>
          have ht' : (t + tau) + (m : ℚ) * tau = T := by linarith
          simp only [genLoop, if_pos hlt, if_neg hnc]
          rw [ih fl (t + tau) (f tau s) (by omega) ht']
          simp only [Option.map_some', Option.some.injEq, Prod.mk.injEq]
          constructor
          · rw [List.range_succ_eq_map]
            simp only [List.map_cons, List.map_map]
            refine List.cons_eq_cons.mpr ⟨by push_cast; ring, ?_⟩
            apply List.map_congr_left
            intro k _
            simp only [Function.comp_apply, Nat.succ_eq_add_one]
            push_cast
            ring
          · rw [List.range_succ_eq_map]
            simp only [List.map_cons, List.map_map]
            refine List.cons_eq_cons.mpr ⟨by simp [Function.iterate_one], ?_⟩
            apply List.map_congr_left
            intro k _
            simp only [Function.comp_apply, Nat.succ_eq_add_one,
              Function.iterate_succ_apply]

/-! ### Claims -/

/-- C8: for every pendulum and every state, `rhs(θ, ω) = (ω, -(g/L)·sin θ)`
with `g` and `L` the constants stored at construction (`theta0` stored in
radians); the result is a pure function value of dimension 2 (a pair), so two
calls with the same arguments give the same pair. -/
theorem pendulum_rhs_formula :
    ∀ (p : SimplePendulum) (theta omega : ℝ),
      p.rhs theta omega = (omega, -(p.g / p.L) * Real.sin theta) ∧
      (∀ theta0 g L : ℝ, (SimplePendulum.init theta0 g L).g = g ∧
        (SimplePendulum.init theta0 g L).L = L ∧
        (SimplePendulum.init theta0 g L).theta0 = radians theta0) ∧
      p.rhs theta omega = p.rhs theta omega :=
  fun _ _ _ => ⟨rfl, fun _ _ _ => ⟨rfl, rfl, rfl⟩, rfl⟩

/-- C3: whenever the compact `integrate_RK4` returns a trajectory, each
recorded step satisfies the classical RK4 recurrence of the spec,
`state' = rk4SpecStep rhs τ_eff state`, where the effective step `τ_eff` is
the difference of the recorded times (the nominal `τ`, clamped on the last
step).  The source `rhs` takes only the state, so the stage times `t`,
`t + τ/2`, `t + τ` of the spec recurrence are not passed. -/
theorem rk4_loop_body_follows_spec_recurrence {S : Type} [AddCommMonoid S]
    [Module ℚ S] (rhs : S → S) (state0 : S) (tau T : ℚ) (fuel : ℕ)
    (ts : List ℚ) (hs : List S)
    (h : integrate_RK4 rhs state0 tau T fuel = some (ts, hs)) :
    List.Chain' (fun a b => b.2 = rk4SpecStep rhs (b.1 - a.1) a.2) (ts.zip hs) := by
  unfold integrate_RK4 at h
  rcases Option.map_eq_some'.mp h with ⟨⟨ts₂, hs₂⟩, hrec, hmap⟩
  obtain ⟨h1, h2⟩ := Prod.mk.injEq .. ▸ hmap
  subst h1; subst h2
  rw [rk4Loop_eq_gen] at hrec
  obtain ⟨hlen, hchain⟩ := genLoop_chain _ _ _ _ _ _ _ _ hrec
  have hbody : ∀ (tau' : ℚ) (s : S), rk4Body rhs tau' s = rk4SpecStep rhs tau' s := by
    intro tau' s
    have hh : (1/2 : ℚ) * tau' = tau' / 2 := by ring
    simp only [rk4Body, rk4SpecStep, hh]
  exact hchain.imp (fun a b hab => by rw [hab, hbody])

/-- C3 witness: a concrete one-step RK4 run with `rhs = id`, `τ = T = 1`,
whose recorded step satisfies the spec recurrence. -/
theorem rk4_loop_body_follows_spec_recurrence_witness :
    List.Chain' (fun a b => b.2 = rk4SpecStep (fun y : ℚ => y) (b.1 - a.1) a.2)
      (([0, 1] : List ℚ).zip ([1, 65/24] : List ℚ)) := by
  refine rk4_loop_body_follows_spec_recurrence (fun y : ℚ => y) 1 1 1 1 [0, 1]
    [1, 65/24] ?_
  unfold integrate_RK4
  rw [rk4Loop_eq_gen,
    genLoop_exact (rk4Body (fun y : ℚ => y)) 1 1 (by norm_num) 1 1 0 1 le_rfl
      (by norm_num)]
  norm_num [rk4Body, smul_eq_mul, List.range_succ]

/-- C4: whenever the spec-modelled `integrate_RK2` (RHS receiver supplied as
a parameter, spec section 9) returns a trajectory, each recorded step
satisfies the midpoint recurrence of the spec,
`state' = rk2SpecStep rhs τ_eff state` with `τ_eff` the difference of the
recorded times; the body makes exactly two `rhs` evaluations. -/
theorem rk2_loop_body_follows_spec_recurrence {S : Type} [AddCommMonoid S]
    [Module ℚ S] (rhs : S → S) (state0 : S) (tau T : ℚ) (fuel : ℕ)
    (ts : List ℚ) (hs : List S)
    (h : integrate_RK2_model rhs state0 tau T fuel = some (ts, hs)) :
    List.Chain' (fun a b => b.2 = rk2SpecStep rhs (b.1 - a.1) a.2) (ts.zip hs) := by
  unfold integrate_RK2_model at h
  rcases Option.map_eq_some'.mp h with ⟨⟨ts₂, hs₂⟩, hrec, hmap⟩
  obtain ⟨h1, h2⟩ := Prod.mk.injEq .. ▸ hmap
  subst h1; subst h2
  rw [rk2ModelLoop_eq_gen] at hrec
  obtain ⟨hlen, hchain⟩ := genLoop_chain _ _ _ _ _ _ _ _ hrec
  have hbody : ∀ (tau' : ℚ) (s : S), rk2Body rhs tau' s = rk2SpecStep rhs tau' s := by
    intro tau' s
    have hh : (1/2 : ℚ) * tau' = tau' / 2 := by ring
    simp only [rk2Body, rk2SpecStep, hh]
  exact hchain.imp (fun a b hab => by rw [hab, hbody])

/-- C4 witness: a concrete one-step RK2 run with `rhs = id`, `τ = T = 1`,
whose recorded step satisfies the spec recurrence. -/
theorem rk2_loop_body_follows_spec_recurrence_witness :
    List.Chain' (fun a b => b.2 = rk2SpecStep (fun y : ℚ => y) (b.1 - a.1) a.2)
      (([0, 1] : List ℚ).zip ([1, 5/2] : List ℚ)) := by
  refine rk2_loop_body_follows_spec_recurrence (fun y : ℚ => y) 1 1 1 1 [0, 1]
    [1, 5/2] ?_
  unfold integrate_RK2_model
  rw [rk2ModelLoop_eq_gen,
    genLoop_exact (rk2Body (fun y : ℚ => y)) 1 1 (by norm_num) 1 1 0 1 le_rfl
      (by norm_num)]
  norm_num [rk2Body, smul_eq_mul, List.range_succ]

/-- C5: whenever `integrate_euler` returns a trajectory, each recorded step
of the pendulum state satisfies the Euler recurrence of the spec,
`state' = state + τ · rhs state` componentwise on `(θ, ω)` (the loop uses
the full nominal `dt` on every step). -/
theorem euler_loop_body_follows_spec_recurrence (p : SimplePendulum)
    (dt tmax : ℚ) (fuel : ℕ) (ts : List ℚ) (ths oms : List ℝ)
    (h : p.integrate_euler dt tmax fuel = some (ts, ths, oms)) :
    List.Chain' (fun a b => b = eulerSpecStep p dt a) (ths.zip oms) := by
  unfold SimplePendulum.integrate_euler at h
  rcases Option.map_eq_some'.mp h with ⟨⟨ts₂, ths₂, oms₂⟩, hrec, hmap⟩
  simp only [Prod.mk.injEq] at hmap
  obtain ⟨h1, h2, h3⟩ := hmap
  subst h1; subst h2; subst h3
  obtain ⟨_, _, hchain⟩ := eulerLoop_chain p dt tmax fuel 0 p.theta0 0 _ _ _ hrec
  exact hchain

/-- C5 witness: a (zero-step) Euler run of the worked pendulum instance; the
trajectory trivially satisfies the recurrence chain. -/
theorem euler_loop_body_follows_spec_recurrence_witness :
    List.Chain' (fun a b => b = eulerSpecStep pend10 (1/10) a)
      (([pend10.theta0] : List ℝ).zip ([0] : List ℝ)) := by
  refine euler_loop_body_follows_spec_recurrence pend10 (1/10) 0 0 [0]
    [pend10.theta0] [0] ?_
  unfold SimplePendulum.integrate_euler
  norm_num [eulerLoop]

/-- C10: `integrate_RK2` and the first `integrate_RK4` definition never
return normally when `T > 0`: given at least one iteration of budget, the
first loop iteration evaluates `"insert_here".rhs(state_old)`, an attribute
access on a string literal, which raises `AttributeError`, so no stepped
state is appended; when `T ≤ 0` the loop body never runs and both return
normally with only the initial entry. -/
theorem rk2_and_rk4v1_always_raise {S : Type} [AddCommMonoid S] [Module ℚ S]
    (state0 : S) (tau T : ℚ) (fuel : ℕ) (hfuel : 1 ≤ fuel) :
    (0 < T →
      integrate_RK2 state0 tau T fuel = some (Except.error PyError.attributeError) ∧
      integrate_RK4_v1 state0 tau T fuel = some (Except.error PyError.attributeError)) ∧
    (T ≤ 0 →
      integrate_RK2 state0 tau T fuel = some (Except.ok ([0], [state0])) ∧
      integrate_RK4_v1 state0 tau T fuel = some (Except.ok ([0], [state0]))) := by
  obtain ⟨n, rfl⟩ : ∃ n, fuel = n + 1 := ⟨fuel - 1, by omega⟩
  constructor
  · intro hT
    constructor
    · unfold integrate_RK2 rk2Loop
      simp [insertHereRhs, if_pos hT, Except.map]
    · unfold integrate_RK4_v1 rk4V1Loop
      simp [insertHereRhs, if_pos hT, Except.map]
  · intro hT
    have h0 : ¬ (0:ℚ) < T := not_lt.mpr hT
    constructor
    · unfold integrate_RK2 rk2Loop
      simp [if_neg h0, Except.map]
    · unfold integrate_RK4_v1 rk4V1Loop
      simp [if_neg h0, Except.map]

/-- C10 witness: with `T = 1 > 0` both scaffolded integrators raise, and with
`T = -1 ≤ 0` both return only the initial entry. -/
theorem rk2_and_rk4v1_always_raise_witness :
    (integrate_RK2 (0:ℚ) 1 1 1 = some (Except.error PyError.attributeError) ∧
      integrate_RK4_v1 (0:ℚ) 1 1 1 = some (Except.error PyError.attributeError)) ∧
    (integrate_RK2 (0:ℚ) 1 (-1) 1 = some (Except.ok ([0], [0])) ∧
      integrate_RK4_v1 (0:ℚ) 1 (-1) 1 = some (Except.ok ([0], [0]))) :=
  ⟨(rk2_and_rk4v1_always_raise (0:ℚ) 1 1 1 le_rfl).1 (by norm_num),
   (rk2_and_rk4v1_always_raise (0:ℚ) 1 (-1) 1 le_rfl).2 (by norm_num)⟩

/-- C2 counterexample: `integrate_euler` with duration `tmax = -1 ≤ 0` is not
rejected: the call returns normally with the initial-only trajectory, so no
fail-fast parameter check exists at driver entry. -/
theorem no_parameter_validation_cex :
    pend10.integrate_euler 1 (-1) 0 = some ([0], [pend10.theta0], [0]) := by
  unfold SimplePendulum.integrate_euler
  norm_num [eulerLoop]

/-- C2 amended: no parameter validation is performed at any driver entry.
A call with `T ≤ 0` returns normally with only the initial sample; a call
with `τ ≤ 0 < T` loops forever (no iteration budget suffices) instead of
failing fast. -/
theorem no_parameter_validation_amended (p : SimplePendulum) {S : Type}
    [AddCommMonoid S] [Module ℚ S] (rhs : S → S) (state0 : S)
    (dt tmax tau T : ℚ) (fuelE fuelR : ℕ) :
    (tmax ≤ 0 → p.integrate_euler dt tmax fuelE = some ([0], [p.theta0], [0])) ∧
    (dt ≤ 0 → 0 < tmax → p.integrate_euler dt tmax fuelE = none) ∧
    (T ≤ 0 → integrate_RK4 rhs state0 tau T fuelR = some ([0], [state0])) ∧
    (tau ≤ 0 → 0 < T → integrate_RK4 rhs state0 tau T fuelR = none) := by
  refine ⟨?_, ?_, ?_, ?_⟩
  · intro h
    have h0 : ¬ (0:ℚ) < tmax := not_lt.mpr h
    unfold SimplePendulum.integrate_euler
    cases fuelE with
    | zero => simp [eulerLoop, if_neg h0]
    | succ n => simp [eulerLoop, if_neg h0]
  · intro h1 h2
    unfold SimplePendulum.integrate_euler
    rw [eulerLoop_none p dt tmax h2 h1 fuelE 0 _ _ le_rfl]
    rfl
  · intro h
    have h0 : ¬ (0:ℚ) < T := not_lt.mpr h
    unfold integrate_RK4
    cases fuelR with
    | zero => simp [rk4Loop, if_neg h0]
    | succ n => simp [rk4Loop, if_neg h0]
  · intro h1 h2
    unfold integrate_RK4
    rw [rk4Loop_eq_gen, genLoop_none (rk4Body rhs) T h2 fuelR tau 0 state0 h1 le_rfl]
    rfl

/-- C2 amended witness: concrete runs showing a `T ≤ 0` call returning
normally and `τ ≤ 0 < T` calls diverging. -/
theorem no_parameter_validation_amended_witness :
    pend10.integrate_euler 1 (-2) 5 = some ([0], [pend10.theta0], [0]) ∧
    pend10.integrate_euler (-1) 1 5 = none ∧
    integrate_RK4 (fun y : ℚ => y) (0:ℚ) (-1) 1 5 = none :=
  ⟨(no_parameter_validation_amended pend10 (fun y : ℚ => y) (0:ℚ) 1 (-2) (-1) 1 5 5).1
      (by norm_num),
   (no_parameter_validation_amended pend10 (fun y : ℚ => y) (0:ℚ) (-1) 1 (-1) 1 5 5).2.1
      (by norm_num) (by norm_num),
   (no_parameter_validation_amended pend10 (fun y : ℚ => y) (0:ℚ) 1 (-2) (-1) 1 5 5).2.2.2
      (by norm_num) (by norm_num)⟩

/-- C7: the worked scenario `SimplePendulum(10).integrate_euler(0.1, 20)`
(with the defaults `g = L = 9.81`): the run terminates within 200 iterations
and all three returned arrays have exactly 201 samples, with
`θ[0] = radians 10 ≈ 0.1745` and `ω[0] = 0` (exact-arithmetic model of the
Python floats). -/
theorem euler_pendulum_scenario :
    ∃ ts ths oms,
      pend10.integrate_euler (1/10) 20 200 = some (ts, ths, oms) ∧
      ts.length = 201 ∧ ths.length = 201 ∧ oms.length = 201 ∧
      ts.head? = some 0 ∧ ths.head? = some (radians 10) ∧ oms.head? = some 0 ∧
      |radians 10 - 0.1745| < 1/10000 := by
  have hceil : (⌈((20:ℚ) - 0) / (1/10)⌉).toNat = 200 := by
    rw [show ((20:ℚ) - 0) / (1/10) = ((200:ℤ):ℚ) by norm_num, Int.ceil_intCast]
    rfl
  obtain ⟨ts, ths, oms, heq, hlen, hlenth, hlenom, _, _, _⟩ :=
    eulerLoop_spec pend10 (1/10) 20 (by norm_num) 200 0 pend10.theta0 0
      (le_of_eq hceil)
  refine ⟨0 :: ts, pend10.theta0 :: ths, 0 :: oms, ?_, ?_, ?_, ?_, rfl, ?_, rfl, ?_⟩
  · unfold SimplePendulum.integrate_euler
    rw [heq]
    rfl
  · simp only [List.length_cons, hlen, hceil]
  · simp only [List.length_cons, hlenth, hlen, hceil]
  · simp only [List.length_cons, hlenom, hlen, hceil]
  · show some pend10.theta0 = some (radians 10)
    simp [pend10, SimplePendulum.init]
  · unfold radians
    rw [abs_sub_lt_iff]
    constructor <;> linarith [Real.pi_gt_d6, Real.pi_lt_d6]

/-- C9: the scenario `T = 1`, `τ = 0.1`, `rhs y = -y`, `y₀ = 1`: the compact
`integrate_RK4` (with that RHS supplied) terminates in exactly 10 steps and
its final state, the exact rational `(217161/240000)^10`, is within `1e-5`
of the analytic solution `e⁻¹`. -/
theorem rk4_exp_decay_scenario :
    ∃ ts ys, integrate_RK4 (fun y : ℚ => -y) 1 (1/10) 1 10 = some (ts, ys) ∧
      ys.getLast? = some (((217161 : ℚ)/240000)^10) ∧
      |((((217161 : ℚ)/240000)^10 : ℚ) : ℝ) - Real.exp (-1)| < 1/100000 := by
  have hbody : rk4Body (fun y : ℚ => -y) (1/10) =
      fun y : ℚ => (217161/240000) * y := by
    funext y
    simp only [rk4Body, smul_eq_mul]
    ring
  refine ⟨0 :: (List.range 10).map (fun k : ℕ => 0 + ((k : ℚ) + 1) * (1/10)),
    1 :: (List.range 10).map (fun k : ℕ => (fun y : ℚ => (217161/240000) * y)^[k+1] 1),
    ?_, ?_, ?_⟩
  · unfold integrate_RK4
    rw [rk4Loop_eq_gen,
      genLoop_exact (rk4Body (fun y : ℚ => -y)) 1 (1/10) (by norm_num) 10 10 0 1
        le_rfl (by norm_num), hbody]
    rfl
  · have hmap : ((List.range 10).map
        (fun k : ℕ => (fun y : ℚ => (217161/240000) * y)^[k+1] 1)).getLast? =
        some ((fun y : ℚ => (217161/240000) * y)^[9+1] 1) := by
      rw [List.getLast?_map,
        show (List.range 10).getLast? = some 9 from by
          rw [List.getLast?_eq_getElem?]; simp]
      rfl
    have hne : (List.range 10).map
        (fun k : ℕ => (fun y : ℚ => (217161/240000) * y)^[k+1] 1) ≠ [] := by
      simp
    cases hl : (List.range 10).map
        (fun k : ℕ => (fun y : ℚ => (217161/240000) * y)^[k+1] 1) with
    | nil => exact absurd hl hne
    | cons a l =>
        rw [List.getLast?_cons_cons]
        rw [hl] at hmap
        rw [hmap, mul_left_iterate]
        norm_num
  · have hq : ((((217161 : ℚ)/240000)^10 : ℚ) : ℝ) = ((217161:ℝ)/240000)^10 := by
      push_cast
      ring
    have hplo : (0.36787977 : ℝ) < ((217161:ℝ)/240000)^10 := by norm_num
    have hphi : ((217161:ℝ)/240000)^10 < 0.36787978 := by norm_num
    have hinvlo : (2.7182818286 : ℝ)⁻¹ < (Real.exp 1)⁻¹ :=
      inv_strictAnti₀ (Real.exp_pos 1) Real.exp_one_lt_d9
    have hinvhi : (Real.exp 1)⁻¹ < (2.7182818283:ℝ)⁻¹ :=
      inv_strictAnti₀ (by norm_num) Real.exp_one_gt_d9
    have helo : (0.3678794411 : ℝ) < (Real.exp 1)⁻¹ :=
      lt_trans (by norm_num) hinvlo
    have hehi : (Real.exp 1)⁻¹ < 0.3678794412 :=
      lt_trans hinvhi (by norm_num)
    rw [hq, Real.exp_neg, abs_sub_lt_iff]
    constructor <;> linarith

theorem getLast?_cons_of_ne_nil {α : Type} (a : α) {l : List α} (h : l ≠ []) :
    (a :: l).getLast? = l.getLast? := by
  cases l with
  | nil => exact absurd rfl h
  | cons b m => exact List.getLast?_cons_cons

/-- Shape of a full clamped-driver run from `t = 0` with `0 < τ` and
`0 < T`. -/
theorem genLoop_run_shape {S : Type} (f : ℚ → S → S) (tau T : ℚ) (fuel : ℕ)
    (s0 : S) (htau : 0 < tau) (hT : 0 < T)
    (hfuel : (⌈T / tau⌉).toNat ≤ fuel) :
    ∃ ts hs, genLoop f T fuel tau 0 s0 = some (ts, hs) ∧
      ts.length = (⌈T / tau⌉).toNat ∧ hs.length = ts.length ∧
      List.Chain' (fun a b : ℚ => a < b) (0 :: ts) ∧
      (∀ u ∈ ts, u ≤ T) ∧ ts.getLast? = some T ∧ ts ≠ [] := by
  have h0 : (T - 0) / tau = T / tau := by ring
  obtain ⟨ts, hs, heq, hlen, hlenh, hchain, hbound, hlast⟩ :=
    genLoop_spec f T fuel tau 0 s0 htau (by rw [h0]; exact hfuel)
  rw [h0] at hlen
  have hpos : (0:ℤ) < ⌈T / tau⌉ :=
    Int.lt_ceil.mpr (by exact_mod_cast div_pos hT htau)
  have hne : ts ≠ [] := by
    intro hnil
    rw [hnil] at hlen
    simp only [List.length_nil] at hlen
    omega
  exact ⟨ts, hs, heq, hlen, hlenh, hchain, hbound, hlast hT, hne⟩

/-- Shape of a full Euler run from `t = 0` with `0 < dt` and `0 < tmax`: the
unclamped loop runs to `⌈tmax/dt⌉ · dt`, which is at least `tmax`. -/
theorem euler_run_shape (p : SimplePendulum) (dt tmax : ℚ) (fuel : ℕ)
    (hdt : 0 < dt) (htm : 0 < tmax)
    (hfuel : (⌈tmax / dt⌉).toNat ≤ fuel) :
    ∃ ts ths oms, eulerLoop p dt tmax fuel 0 p.theta0 0 = some (ts, ths, oms) ∧
      ts.length = (⌈tmax / dt⌉).toNat ∧
      ths.length = ts.length ∧ oms.length = ts.length ∧
      List.Chain' (fun a b : ℚ => a < b) (0 :: ts) ∧
      (∀ u ∈ ts, u ≤ ((⌈tmax / dt⌉).toNat : ℚ) * dt) ∧
      ts.getLast? = some (((⌈tmax / dt⌉).toNat : ℚ) * dt) ∧ ts ≠ [] ∧
      tmax ≤ ((⌈tmax / dt⌉).toNat : ℚ) * dt := by
  have h0 : (tmax - 0) / dt = tmax / dt := by ring
  obtain ⟨ts, ths, oms, heq, hlen, hlenth, hlenom, hchain, hbound, hlast⟩ :=
    eulerLoop_spec p dt tmax hdt fuel 0 p.theta0 0 (by rw [h0]; exact hfuel)
  rw [h0] at hlen hbound hlast
  have hpos : (0:ℤ) < ⌈tmax / dt⌉ :=
    Int.lt_ceil.mpr (by exact_mod_cast div_pos htm hdt)
  have hne : ts ≠ [] := by
    intro hnil
    rw [hnil] at hlen
    simp only [List.length_nil] at hlen
    omega
  have hub : tmax ≤ ((⌈tmax / dt⌉).toNat : ℚ) * dt := by
    have h1 : tmax / dt ≤ ((⌈tmax / dt⌉ : ℤ) : ℚ) := Int.le_ceil _
    have h2 : ((⌈tmax / dt⌉).toNat : ℚ) = ((⌈tmax / dt⌉ : ℤ) : ℚ) := by
      norm_cast
      exact Int.toNat_of_nonneg (le_of_lt hpos)
    rw [h2]
    exact (div_le_iff₀ hdt).mp h1
  refine ⟨ts, ths, oms, heq, hlen, hlenth, hlenom, hchain, ?_, ?_, hne, hub⟩
  · intro u hu
    have hb := hbound u hu
    linarith
  · have hl := hlast htm
    rw [hl]
    norm_num

/-- C1 counterexample: `integrate_euler` does not clamp the last step.  With
`τ = 3/10` and `T = 1` the final recorded time is `6/5`, not `1`: the run
overshoots `T`. -/
theorem final_time_clamp_cex :
    ∃ ts ths oms, pend10.integrate_euler (3/10) 1 4 = some (ts, ths, oms) ∧
      ts.getLast? = some (6/5) ∧ ¬ ((6/5 : ℚ) ≤ 1) ∧ (6/5 : ℚ) ≠ 1 := by
  have hceil : (⌈(1:ℚ) / (3/10)⌉).toNat = 4 := by
    rw [show ⌈(1:ℚ) / (3/10)⌉ = 4 from by rw [Int.ceil_eq_iff]; norm_num]
    rfl
  obtain ⟨ts, ths, oms, heq, hlen, _, _, _, _, hlast, hne, _⟩ :=
    euler_run_shape pend10 (3/10) 1 4 (by norm_num) (by norm_num) (le_of_eq hceil)
  refine ⟨0 :: ts, pend10.theta0 :: ths, 0 :: oms, ?_, ?_, by norm_num, by norm_num⟩
  · unfold SimplePendulum.integrate_euler
    rw [heq]
    rfl
  · rw [getLast?_cons_of_ne_nil 0 hne, hlast, hceil]
    norm_num

/-- C1 amended: the loops of the compact `integrate_RK4` and of the
spec-modelled `integrate_RK2` clamp the last step, so their final recorded
time equals `T` exactly and no recorded time exceeds `T`; `integrate_euler`
performs no clamp: its final recorded time is `⌈T/τ⌉·τ ≥ T`, which exceeds
`T` whenever `τ` does not divide `T`.  (The literal `integrate_RK2` raises
before recording any step, claim C10.) -/
theorem final_time_clamp_amended {S : Type} [AddCommMonoid S] [Module ℚ S]
    (rhs : S → S) (state0 : S) (p : SimplePendulum) (tau T : ℚ) (fuel : ℕ)
    (htau : 0 < tau) (hT : 0 < T) (hfuel : (⌈T / tau⌉).toNat ≤ fuel) :
    (∃ ts hs, integrate_RK4 rhs state0 tau T fuel = some (ts, hs) ∧
       ts.getLast? = some T ∧ ∀ u ∈ ts, u ≤ T) ∧
    (∃ ts hs, integrate_RK2_model rhs state0 tau T fuel = some (ts, hs) ∧
       ts.getLast? = some T ∧ ∀ u ∈ ts, u ≤ T) ∧
    (∃ ts ths oms, p.integrate_euler tau T fuel = some (ts, ths, oms) ∧
       ts.getLast? = some (((⌈T / tau⌉).toNat : ℚ) * tau) ∧
       T ≤ ((⌈T / tau⌉).toNat : ℚ) * tau) := by
  refine ⟨?_, ?_, ?_⟩
  · obtain ⟨ts, hs, heq, _, _, _, hbound, hlast, hne⟩ :=
      genLoop_run_shape (rk4Body rhs) tau T fuel state0 htau hT hfuel
    refine ⟨0 :: ts, state0 :: hs, ?_, ?_, ?_⟩
    · unfold integrate_RK4
      rw [rk4Loop_eq_gen, heq]
      rfl
    · rw [getLast?_cons_of_ne_nil 0 hne, hlast]
    · intro u hu
      rcases List.mem_cons.mp hu with h | h
      · subst h; exact hT.le
      · exact hbound u h
  · obtain ⟨ts, hs, heq, _, _, _, hbound, hlast, hne⟩ :=
      genLoop_run_shape (rk2Body rhs) tau T fuel state0 htau hT hfuel
    refine ⟨0 :: ts, state0 :: hs, ?_, ?_, ?_⟩
    · unfold integrate_RK2_model
      rw [rk2ModelLoop_eq_gen, heq]
      rfl
    · rw [getLast?_cons_of_ne_nil 0 hne, hlast]
    · intro u hu
      rcases List.mem_cons.mp hu with h | h
      · subst h; exact hT.le
      · exact hbound u h
  · obtain ⟨ts, ths, oms, heq, _, _, _, _, _, hlast, hne, hub⟩ :=
      euler_run_shape p tau T fuel htau hT hfuel
    refine ⟨0 :: ts, p.theta0 :: ths, 0 :: oms, ?_, ?_, hub⟩
    · unfold SimplePendulum.integrate_euler
      rw [heq]
      rfl
    · rw [getLast?_cons_of_ne_nil 0 hne, hlast]

/-- C1 amended witness: a concrete instantiation with `τ = 1/2`, `T = 1`:
the RK drivers end exactly at `1`, the Euler driver at `⌈2⌉·(1/2) = 1`. -/
theorem final_time_clamp_amended_witness :
    (∃ ts hs, integrate_RK4 (fun y : ℚ => y) (0:ℚ) (1/2) 1 2 = some (ts, hs) ∧
       ts.getLast? = some 1 ∧ ∀ u ∈ ts, u ≤ 1) ∧
    (∃ ts hs, integrate_RK2_model (fun y : ℚ => y) (0:ℚ) (1/2) 1 2 = some (ts, hs) ∧
       ts.getLast? = some 1 ∧ ∀ u ∈ ts, u ≤ 1) ∧
    (∃ ts ths oms, pend10.integrate_euler (1/2) 1 2 = some (ts, ths, oms) ∧
       ts.getLast? = some (((⌈(1:ℚ) / (1/2)⌉).toNat : ℚ) * (1/2)) ∧
       (1:ℚ) ≤ ((⌈(1:ℚ) / (1/2)⌉).toNat : ℚ) * (1/2)) :=
  final_time_clamp_amended (fun y : ℚ => y) (0:ℚ) pend10 (1/2) 1 2 (by norm_num)
    (by norm_num)
    (by
      rw [show ⌈(1:ℚ) / (1/2)⌉ = 2 from by rw [Int.ceil_eq_iff]; norm_num]
      norm_num)

/-- C6 counterexample: the Euler trajectory is not bounded by `T`.  With
`τ = 2/5` and `T = 1` the returned time sequence contains `6/5 > 1`. -/
theorem trajectory_bounded_cex :
    ∃ ts ths oms, pend10.integrate_euler (2/5) 1 3 = some (ts, ths, oms) ∧
      ¬ (∀ u ∈ ts, u ≤ (1:ℚ)) := by
  have hceil : (⌈(1:ℚ) / (2/5)⌉).toNat = 3 := by
    rw [show ⌈(1:ℚ) / (2/5)⌉ = 3 from by rw [Int.ceil_eq_iff]; norm_num]
    rfl
  obtain ⟨ts, ths, oms, heq, _, _, _, _, _, hlast, hne, _⟩ :=
    euler_run_shape pend10 (2/5) 1 3 (by norm_num) (by norm_num) (le_of_eq hceil)
  have hmem : ((6:ℚ)/5) ∈ ts := by
    apply mem_of_getLast?_eq_some
    rw [hlast, hceil]
    norm_num
  refine ⟨0 :: ts, pend10.theta0 :: ths, 0 :: oms, ?_, ?_⟩
  · unfold SimplePendulum.integrate_euler
    rw [heq]
    rfl
  · intro hall
    have := hall (6/5) (List.mem_cons_of_mem 0 hmem)
    norm_num at this

/-- C6 amended: for `τ > 0`, `T > 0` and enough fuel, the trajectories of
the compact `integrate_RK4` and of the spec-modelled `integrate_RK2` have a
strictly increasing time sequence of length `⌈T/τ⌉ + 1`, first entry
`(0, initial state)`, and all times bounded by `T`; `integrate_euler`
produces the same length, strict monotonicity and first entry, but its times
are bounded only by `⌈T/τ⌉·τ`, which exceeds `T` whenever `τ` does not
divide `T`.  (The literal `integrate_RK2` raises before returning, C10.) -/
theorem trajectory_shape_amended {S : Type} [AddCommMonoid S] [Module ℚ S]
    (rhs : S → S) (state0 : S) (p : SimplePendulum) (tau T : ℚ) (fuel : ℕ)
    (htau : 0 < tau) (hT : 0 < T) (hfuel : (⌈T / tau⌉).toNat ≤ fuel) :
    (∃ ts hs, integrate_RK4 rhs state0 tau T fuel = some (ts, hs) ∧
       ts.length = (⌈T / tau⌉).toNat + 1 ∧ hs.length = ts.length ∧
       List.Chain' (fun a b : ℚ => a < b) ts ∧
       ts.head? = some 0 ∧ hs.head? = some state0 ∧ ∀ u ∈ ts, u ≤ T) ∧
    (∃ ts hs, integrate_RK2_model rhs state0 tau T fuel = some (ts, hs) ∧
       ts.length = (⌈T / tau⌉).toNat + 1 ∧ hs.length = ts.length ∧
       List.Chain' (fun a b : ℚ => a < b) ts ∧
       ts.head? = some 0 ∧ hs.head? = some state0 ∧ ∀ u ∈ ts, u ≤ T) ∧
    (∃ ts ths oms, p.integrate_euler tau T fuel = some (ts, ths, oms) ∧
       ts.length = (⌈T / tau⌉).toNat + 1 ∧ ths.length = ts.length ∧
       oms.length = ts.length ∧ List.Chain' (fun a b : ℚ => a < b) ts ∧
       ts.head? = some 0 ∧ ths.head? = some p.theta0 ∧ oms.head? = some 0 ∧
       ∀ u ∈ ts, u ≤ ((⌈T / tau⌉).toNat : ℚ) * tau) := by
  refine ⟨?_, ?_, ?_⟩
  · obtain ⟨ts, hs, heq, hlen, hlenh, hchain, hbound, _, _⟩ :=
      genLoop_run_shape (rk4Body rhs) tau T fuel state0 htau hT hfuel
    refine ⟨0 :: ts, state0 :: hs, ?_, ?_, ?_, hchain, rfl, rfl, ?_⟩
    · unfold integrate_RK4
      rw [rk4Loop_eq_gen, heq]
      rfl
    · simp [hlen]
    · simp [hlenh, hlen]
    · intro u hu
      rcases List.mem_cons.mp hu with h | h
      · subst h; exact hT.le
      · exact hbound u h
  · obtain ⟨ts, hs, heq, hlen, hlenh, hchain, hbound, _, _⟩ :=
      genLoop_run_shape (rk2Body rhs) tau T fuel state0 htau hT hfuel
    refine ⟨0 :: ts, state0 :: hs, ?_, ?_, ?_, hchain, rfl, rfl, ?_⟩
    · unfold integrate_RK2_model
      rw [rk2ModelLoop_eq_gen, heq]
      rfl
    · simp [hlen]
    · simp [hlenh, hlen]
    · intro u hu
      rcases List.mem_cons.mp hu with h | h
      · subst h; exact hT.le
      · exact hbound u h
  · obtain ⟨ts, ths, oms, heq, hlen, hlenth, hlenom, hchain, hbound, _, _, _⟩ :=
      euler_run_shape p tau T fuel htau hT hfuel
    refine ⟨0 :: ts, p.theta0 :: ths, 0 :: oms, ?_, ?_, ?_, ?_, hchain, rfl, rfl,
      rfl, ?_⟩
    · unfold SimplePendulum.integrate_euler
      rw [heq]
      rfl
    · simp [hlen]
    · simp [hlenth, hlen]
    · simp [hlenom, hlen]
    · intro u hu
      rcases List.mem_cons.mp hu with h | h
      · subst h; positivity
      · exact hbound u h

/-- C6 amended witness: concrete instantiation with `τ = 1/2`, `T = 1`:
all three trajectories have `⌈2⌉ + 1 = 3` entries starting at time `0`. -/
theorem trajectory_shape_amended_witness :
    (∃ ts hs, integrate_RK4 (fun y : ℚ => -y) (1:ℚ) (1/2) 1 2 = some (ts, hs) ∧
       ts.length = (⌈(1:ℚ) / (1/2)⌉).toNat + 1 ∧ hs.length = ts.length ∧
       List.Chain' (fun a b : ℚ => a < b) ts ∧
       ts.head? = some 0 ∧ hs.head? = some 1 ∧ ∀ u ∈ ts, u ≤ 1) ∧
    (∃ ts hs, integrate_RK2_model (fun y : ℚ => -y) (1:ℚ) (1/2) 1 2 = some (ts, hs) ∧
       ts.length = (⌈(1:ℚ) / (1/2)⌉).toNat + 1 ∧ hs.length = ts.length ∧
       List.Chain' (fun a b : ℚ => a < b) ts ∧
       ts.head? = some 0 ∧ hs.head? = some 1 ∧ ∀ u ∈ ts, u ≤ 1) ∧
    (∃ ts ths oms, pend10.integrate_euler (1/2) 1 2 = some (ts, ths, oms) ∧
       ts.length = (⌈(1:ℚ) / (1/2)⌉).toNat + 1 ∧ ths.length = ts.length ∧
       oms.length = ts.length ∧ List.Chain' (fun a b : ℚ => a < b) ts ∧
       ts.head? = some 0 ∧ ths.head? = some pend10.theta0 ∧ oms.head? = some 0 ∧
       ∀ u ∈ ts, u ≤ ((⌈(1:ℚ) / (1/2)⌉).toNat : ℚ) * (1/2)) :=
  trajectory_shape_amended (fun y : ℚ => -y) (1:ℚ) pend10 (1/2) 1 2 (by norm_num)
    (by norm_num)
    (by
      rw [show ⌈(1:ℚ) / (1/2)⌉ = 2 from by rw [Int.ceil_eq_iff]; norm_num]
      norm_num)
